import Mathlib

/-!
Verification of the tuple trait implementations (`src/libstd/tuple.rs`) and
the intrinsics layer (`src/libstd/unstable/intrinsics.rs`) of this snapshot
of the Rust standard library.

The tuple macro `tuple_impls!` generates, for each arity N in 2..12, the
traits `CloneableTupleN` / `ImmutableTupleN` and impls of `Clone`, `Eq`,
`TotalEq`, `Ord`, `TotalOrd` and `Zero`.  The per-position expansion is the
same for every arity, so we embed the generated code arity-generically:

* the interleaved comparison macros `lexical_lt!` / `lexical_cmp!` become
  structural recursions over the list of per-position argument pairs
  `[(a1,b1), ..., (aN,bN)]` (the exact interleaving the macro receives);
* the per-position accessor/clone/zero impls become functions over a
  heterogeneous tuple modelled as a dependent function `(i : Fin n) → F i`,
  position i's pattern-match branch binding exactly the component `t i`.

Element-type capabilities (`Ord`, `Eq`, `Clone`, `Zero`) are passed as
explicit function parameters, exactly the operations the generated code
invokes on the elements.
-/

namespace Tuple

/-- Embedding of the `lexical_lt!` macro (tuple.rs lines 237-244) applied to
the interleaved per-position pairs `[(a1,b1),...,(aN,bN)]`.  For more than
one remaining pair it expands to
`if *a < *b { true } else if !(*b < *a) { recurse } else { false }`;
for the last pair it is `*a < *b`. -/
def lexical_lt (lt : α → α → Bool) : List (α × α) → Bool
  | [] => false
  | [(a, b)] => lt a b
  | (a, b) :: p :: rest =>
    if lt a b then true
    else if !(lt b a) then lexical_lt lt (p :: rest)
    else false

/-- Embedding of the `lexical_cmp!` macro (tuple.rs lines 246-254): match on
the head comparison, recurse on `Equal`, otherwise return that ordering; the
last pair is compared directly. -/
def lexical_cmp (cmp : α → α → Ordering) : List (α × α) → Ordering
  | [] => Ordering.eq
  | [(a, b)] => cmp a b
  | (a, b) :: p :: rest =>
    match cmp a b with
    | Ordering.eq => lexical_cmp cmp (p :: rest)
    | o => o

/-- The generated `Ord::lt` for an arity-N tuple (tuple.rs lines 198-200):
`lexical_lt!` on the interleaved components of the two tuples, here given as
two same-length lists of components. -/
def tupleLt (lt : α → α → Bool) (xs ys : List α) : Bool :=
  lexical_lt lt (List.zip xs ys)

/-- The generated `Ord::le` (tuple.rs line 202): `!(*other).lt(&(*self))`. -/
def tupleLe (lt : α → α → Bool) (xs ys : List α) : Bool :=
  !(tupleLt lt ys xs)

/-- The generated `Ord::ge` (tuple.rs line 204): `!(*self).lt(other)`. -/
def tupleGe (lt : α → α → Bool) (xs ys : List α) : Bool :=
  !(tupleLt lt xs ys)

/-- The generated `Ord::gt` (tuple.rs line 206): `(*other).lt(&(*self))`. -/
def tupleGt (lt : α → α → Bool) (xs ys : List α) : Bool :=
  tupleLt lt ys xs

/-- The generated `TotalOrd::cmp` (tuple.rs lines 212-214). -/
def tupleCmp (cmp : α → α → Ordering) (xs ys : List α) : Ordering :=
  lexical_cmp cmp (List.zip xs ys)

/-- Natural-number `<` as the element ordering used in the concrete
3-tuple-of-naturals examples. -/
def natLt (x y : Nat) : Bool := decide (x < y)

/-- The `Ord` impl generated for 3-tuples, instantiated at naturals:
`lexical_lt!(self.n0_ref(), other.n0_ref(), ..., self.n2_ref(), other.n2_ref())`. -/
def lt3 (a b : Nat × Nat × Nat) : Bool :=
  lexical_lt natLt [(a.1, b.1), (a.2.1, b.2.1), (a.2.2, b.2.2)]

/-- The generated `gt` for 3-tuples of naturals: `(*other).lt(&(*self))`. -/
def gt3 (a b : Nat × Nat × Nat) : Bool :=
  lt3 b a

end Tuple

namespace Tuple

/-- C1: for every arity (the head step below covers every non-final position
of any arity-N tuple, 2 ≤ N ≤ 12), the generated `lt` compares position 0 and
returns true if it is strictly less, false if strictly greater, and otherwise
recurses into the remaining positions; it short-circuits, the result being
the head comparison alone as soon as the head pair decides, independent of
all later positions; and on 3-tuples of naturals, (1,2,3) < (1,2,4),
(1,2,3) < (2,0,0), and (1,2,3) is neither less than nor greater than
itself. -/
theorem lexical_lt_spec {α : Type} (lt : α → α → Bool) (a b : α)
    (p : α × α) (rest : List (α × α)) :
    (lexical_lt lt ((a, b) :: p :: rest) =
      (if lt a b then true
       else if lt b a then false
       else lexical_lt lt (p :: rest)))
    ∧ ((lt a b = true ∨ lt b a = true) →
        lexical_lt lt ((a, b) :: rest) = lt a b)
    ∧ lt3 (1, 2, 3) (1, 2, 4) = true
    ∧ lt3 (1, 2, 3) (2, 0, 0) = true
    ∧ lt3 (1, 2, 3) (1, 2, 3) = false
    ∧ gt3 (1, 2, 3) (1, 2, 3) = false := by
  refine ⟨?_, ?_, by decide, by decide, by decide, by decide⟩
  · show (if lt a b then true
       else if !(lt b a) then lexical_lt lt (p :: rest)
       else false) = _
    cases h1 : lt a b <;> cases h2 : lt b a <;> simp
  · intro hdec
    rcases hdec with h | h
    · cases rest with
      | nil => rfl
      | cons q l => simp [lexical_lt, h]
    · cases rest with
      | nil => rfl
      | cons q l =>
        simp only [lexical_lt, h]
        cases h1 : lt a b <;> simp

/-- Closed instance of `lexical_lt_spec` at a concrete deciding head pair. -/
theorem lexical_lt_spec_witness :
    lexical_lt natLt [(0, 1), (5, 5)] = natLt 0 1 :=
  (lexical_lt_spec natLt 0 1 (5, 5) [(5, 5)]).2.1 (Or.inl rfl)

/-- When the element three-way comparison agrees with the element `<` in the
sense of the claim, the lexical `cmp` returns `Equal` exactly when the
lexical `lt` rejects both argument orders. -/
theorem lexical_cmp_eq_iff {α : Type} (cmp : α → α → Ordering)
    (lt : α → α → Bool)
    (hagree : ∀ x y, (cmp x y = Ordering.lt ↔ lt x y = true) ∧
      (cmp x y = Ordering.gt ↔ lt y x = true)) :
    ∀ ps : List (α × α),
      (lexical_cmp cmp ps = Ordering.eq ↔
        (lexical_lt lt ps = false ∧
         lexical_lt lt (List.map Prod.swap ps) = false)) := by
  intro ps
  induction ps with
  | nil => simp [lexical_cmp, lexical_lt]
  | cons hd tl ih =>
    obtain ⟨a, b⟩ := hd
    have h1 := hagree a b
    cases tl with
    | nil =>
      cases hc : cmp a b with
      | lt =>
        have hab : lt a b = true := h1.1.mp hc
        simp [lexical_cmp, lexical_lt, hc, hab]
      | eq =>
        have hab : lt a b = false := by
          cases hb : lt a b
          · rfl
          · rw [h1.1.mpr hb] at hc; exact absurd hc (by simp)
        have hba : lt b a = false := by
          cases hb : lt b a
          · rfl
          · rw [h1.2.mpr hb] at hc; exact absurd hc (by simp)
        simp [lexical_cmp, lexical_lt, hc, hab, hba]
      | gt =>
        have hba : lt b a = true := h1.2.mp hc
        simp [lexical_cmp, lexical_lt, hc, hba]
    | cons q l =>
      cases hc : cmp a b with
      | lt =>
        have hab : lt a b = true := h1.1.mp hc
        simp [lexical_cmp, lexical_lt, hc, hab]
      | eq =>
        have hab : lt a b = false := by
          cases hb : lt a b
          · rfl
          · rw [h1.1.mpr hb] at hc; exact absurd hc (by simp)
        have hba : lt b a = false := by
          cases hb : lt b a
          · rfl
          · rw [h1.2.mpr hb] at hc; exact absurd hc (by simp)
        simpa [lexical_cmp, lexical_lt, hc, hab, hba] using ih
      | gt =>
        have hba : lt b a = true := h1.2.mp hc
        simp [lexical_cmp, lexical_lt, hc, hba]

/-- C2: the generated `cmp` performs the same lexical recursion — match the
head comparison, recurse on `Equal`, and otherwise short-circuit to the
head's result independent of all later positions — and, when the element
three-way comparison agrees with the element `<` operator, the result is
`Equal` if and only if neither argument is lexically less than the other. -/
theorem lexical_cmp_spec {α : Type} (cmp : α → α → Ordering)
    (lt : α → α → Bool) (a b : α) (p : α × α) (rest ps : List (α × α))
    (xs ys : List α)
    (hagree : ∀ x y, (cmp x y = Ordering.lt ↔ lt x y = true) ∧
      (cmp x y = Ordering.gt ↔ lt y x = true)) :
    (tupleCmp cmp xs ys = lexical_cmp cmp (List.zip xs ys))
    ∧ (lexical_cmp cmp ((a, b) :: p :: rest) =
      (match cmp a b with
       | Ordering.eq => lexical_cmp cmp (p :: rest)
       | o => o))
    ∧ (cmp a b ≠ Ordering.eq → lexical_cmp cmp ((a, b) :: rest) = cmp a b)
    ∧ (lexical_cmp cmp ps = Ordering.eq ↔
        (lexical_lt lt ps = false ∧
         lexical_lt lt (List.map Prod.swap ps) = false)) := by
  refine ⟨rfl, rfl, ?_, lexical_cmp_eq_iff cmp lt hagree ps⟩
  intro hne
  cases rest with
  | nil => rfl
  | cons q l =>
    cases hc : cmp a b with
    | lt => simp [lexical_cmp, hc]
    | eq => exact absurd hc hne
    | gt => simp [lexical_cmp, hc]

/-- Natural-number three-way comparison, the element `cmp` used in the closed
instance of `lexical_cmp_spec`. -/
def natCmp (x y : Nat) : Ordering :=
  if x < y then Ordering.lt else if y < x then Ordering.gt else Ordering.eq

/-- Closed instance of `lexical_cmp_spec`: on the pair list of the 3-tuples
(1,2,3) and (1,2,3) the lexical `cmp` returns `Equal` exactly when neither
lexical `lt` direction holds, and it does hold here. -/
theorem lexical_cmp_spec_witness :
    lexical_cmp natCmp [(1, 1), (2, 2), (3, 3)] = Ordering.eq ↔
      (lexical_lt natLt [(1, 1), (2, 2), (3, 3)] = false ∧
       lexical_lt natLt (List.map Prod.swap [(1, 1), (2, 2), (3, 3)]) = false) :=
  (lexical_cmp_spec natCmp natLt 1 1 (2, 2) [(3, 3)] [(1, 1), (2, 2), (3, 3)]
    [1, 2, 3] [1, 2, 3]
    (fun x y => by
      constructor
      · constructor
        · intro h
          simp only [natCmp] at h
          by_cases hxy : x < y
          · simpa [natLt]
          · simp [hxy] at h
        · intro h
          simp only [natLt, decide_eq_true_eq] at h
          simp [natCmp, h]
      · constructor
        · intro h
          simp only [natCmp] at h
          by_cases hxy : x < y
          · simp [hxy] at h
          · simp [hxy] at h
            by_cases hyx : y < x
            · simpa [natLt]
            · simp [hyx] at h
        · intro h
          simp only [natLt, decide_eq_true_eq] at h
          have hxy : ¬ x < y := Nat.lt_asymm h
          simp [natCmp, hxy, h])).2.2.2

/-- C3: the generated `le`, `ge` and `gt` are the standard identities over
the generated `lt` — they are not independent lexical recursions but argument
swaps and negations of the single `lexical_lt` expansion. -/
theorem derived_ops_spec {α : Type} (lt : α → α → Bool) (xs ys : List α) :
    tupleLe lt xs ys = !(tupleLt lt ys xs)
    ∧ tupleGe lt xs ys = !(tupleLt lt xs ys)
    ∧ tupleGt lt xs ys = tupleLt lt ys xs
    ∧ tupleLt lt xs ys = lexical_lt lt (List.zip xs ys) :=
  ⟨rfl, rfl, rfl, rfl⟩

/-- The chain `e1 && e2 && ... && eN` that the generated `Eq::eq` builds from
the per-position equalities (tuple.rs line 179), over the interleaved pairs. -/
def tupleEqPairs (eqf : α → α → Bool) : List (α × α) → Bool
  | [] => true
  | (a, b) :: rest => eqf a b && tupleEqPairs eqf rest

/-- The generated `Eq::eq` for an arity-N tuple (tuple.rs lines 178-180). -/
def tupleEq (eqf : α → α → Bool) (xs ys : List α) : Bool :=
  tupleEqPairs eqf (List.zip xs ys)

/-- The generated `Eq::ne` (tuple.rs lines 182-184): `!(*self == *other)`. -/
def tupleNe (eqf : α → α → Bool) (xs ys : List α) : Bool :=
  !(tupleEq eqf xs ys)

/-- The `&&`-chain over the pairs holds exactly when every pair satisfies the
element equality. -/
theorem tupleEqPairs_eq_true_iff (eqf : α → α → Bool) (ps : List (α × α)) :
    tupleEqPairs eqf ps = true ↔ ∀ p ∈ ps, eqf p.1 p.2 = true := by
  induction ps with
  | nil => simp [tupleEqPairs]
  | cons hd tl ih =>
    obtain ⟨a, b⟩ := hd
    simp [tupleEqPairs, ih]

/-- C4: the generated equality holds iff all N positions are pairwise equal,
and the generated `ne` is the negation of the generated `eq`. -/
theorem tuple_eq_spec {α : Type} (eqf : α → α → Bool) (xs ys : List α)
    (hlen : xs.length = ys.length) :
    (tupleEq eqf xs ys = true ↔
      ∀ i : Fin xs.length,
        eqf (xs.get i) (ys.get ⟨i.val, hlen ▸ i.isLt⟩) = true)
    ∧ tupleNe eqf xs ys = !(tupleEq eqf xs ys) := by
  refine ⟨?_, rfl⟩
  rw [tupleEq, tupleEqPairs_eq_true_iff]
  have hzlen : (List.zip xs ys).length = xs.length := by
    simp [List.length_zip, hlen]
  constructor
  · intro h i
    have hi : i.val < (List.zip xs ys).length := by rw [hzlen]; exact i.isLt
    have hmem : (List.zip xs ys)[i.val] ∈ List.zip xs ys :=
      List.mem_iff_getElem.mpr ⟨i.val, hi, rfl⟩
    have h2 := h _ hmem
    simp only [List.getElem_zip] at h2
    simpa [List.get_eq_getElem] using h2
  · intro h p hp
    obtain ⟨i, hi, rfl⟩ := List.mem_iff_getElem.mp hp
    have hi' : i < xs.length := by rw [← hzlen]; exact hi
    have h2 := h ⟨i, hi'⟩
    simp only [List.get_eq_getElem] at h2
    simpa [List.getElem_zip] using h2

/-- Natural-number equality as the element equality for the closed instance
of `tuple_eq_spec`. -/
def natEq (x y : Nat) : Bool := decide (x = y)

/-- Closed instance of `tuple_eq_spec` on the 3-tuples (1,2,3) and (1,2,3). -/
theorem tuple_eq_spec_witness :
    (tupleEq natEq [1, 2, 3] [1, 2, 3] = true ↔
      ∀ i : Fin ([1, 2, 3] : List Nat).length,
        natEq (([1, 2, 3] : List Nat).get i)
          (([1, 2, 3] : List Nat).get ⟨i.val, i.isLt⟩) = true)
    ∧ tupleNe natEq [1, 2, 3] [1, 2, 3] =
        !(tupleEq natEq [1, 2, 3] [1, 2, 3]) :=
  tuple_eq_spec natEq [1, 2, 3] [1, 2, 3] rfl

/-- A heterogeneous tuple of arity n with component types `F i`, modelled as
a dependent function on positions; position i's pattern-match branch
`(_,...,ref x,...,_) => x` binds exactly the component `t i`. -/
def HTup (n : Nat) (F : Fin n → Type) : Type := ∀ i, F i

/-- The generated `ni_ref` accessor (tuple.rs lines 160-167): the positional
pattern match returning a reference to element i. -/
def nthRef {n : Nat} {F : Fin n → Type} (t : HTup n F) (i : Fin n) : F i :=
  t i

/-- The generated `ni` accessor (tuple.rs lines 147-154):
`self.ni_ref().clone()`, where `cl i` is element type i's `clone`. -/
def nth {n : Nat} {F : Fin n → Type} (cl : ∀ i, F i → F i) (t : HTup n F)
    (i : Fin n) : F i :=
  cl i (nthRef t i)

/-- The generated `Clone::clone` (tuple.rs lines 169-173):
`($(self.ni_ref().clone()),+)`. -/
def cloneTuple {n : Nat} {F : Fin n → Type} (cl : ∀ i, F i → F i)
    (t : HTup n F) : HTup n F :=
  fun i => cl i (nthRef t i)

/-- C5: when each element type's clone yields a value equal (by the element
equality) to the original, the value accessor `ni` agrees with the
dereferenced reference accessor `ni_ref` at every position of every arity,
and `ni_ref` returns exactly element i as the positional pattern-match branch
binds it. -/
theorem accessor_spec {n : Nat} {F : Fin n → Type}
    (eqf : ∀ i, F i → F i → Bool) (cl : ∀ i, F i → F i) (t : HTup n F)
    (i : Fin n) (hcl : ∀ j x, eqf j (cl j x) x = true) :
    eqf i (nth cl t i) (nthRef t i) = true ∧ nthRef t i = t i :=
  ⟨hcl i (nthRef t i), rfl⟩

/-- The element equality used in the closed heterogeneous-tuple instances:
decidable equality at each position of an all-`Nat` 3-tuple. -/
def natEq3 : ∀ _ : Fin 3, Nat → Nat → Bool := fun _ x y => decide (x = y)

/-- The identity clone at each position of an all-`Nat` 3-tuple. -/
def idClone3 : ∀ _ : Fin 3, Nat → Nat := fun _ x => x

/-- The concrete 3-tuple (0, 1, 2) in the heterogeneous model. -/
def sample3 : HTup 3 (fun _ => Nat) := fun i => i.val

/-- Closed instance of `accessor_spec` at position 1 of (0, 1, 2). -/
theorem accessor_spec_witness :
    natEq3 1 (nth idClone3 sample3 1) (nthRef sample3 1) = true
    ∧ nthRef sample3 1 = sample3 1 :=
  accessor_spec natEq3 idClone3 sample3 1 (fun j x => by simp [natEq3, idClone3])

/-- C6: when each element type's clone yields a value equal (by the element
equality) to the original, cloning a tuple preserves positional equality:
`clone(t).ni() == t.ni()` at every position of every arity. -/
theorem clone_spec {n : Nat} {F : Fin n → Type}
    (eqf : ∀ i, F i → F i → Bool) (cl : ∀ i, F i → F i) (t : HTup n F)
    (i : Fin n) (hcl : ∀ j x, eqf j (cl j x) x = true) :
    eqf i (nth cl (cloneTuple cl t) i) (nth cl t i) = true :=
  hcl i (cl i (t i))

/-- Closed instance of `clone_spec` at position 2 of (0, 1, 2). -/
theorem clone_spec_witness :
    natEq3 2 (nth idClone3 (cloneTuple idClone3 sample3) 2)
      (nth idClone3 sample3 2) = true :=
  clone_spec natEq3 idClone3 sample3 2 (fun j x => by simp [natEq3, idClone3])

/-- The generated `Zero::zero` (tuple.rs lines 220-222):
`($(Zero::zero()),+)`, where `z i` is element type i's zero value. -/
def zeroTuple {n : Nat} {F : Fin n → Type} (z : ∀ i, F i) : HTup n F :=
  fun i => z i

/-- The generated `Zero::is_zero` (tuple.rs lines 224-226):
`$(self.ni_ref().is_zero())&&+`, where `iz i` is element type i's zero
check. -/
def isZeroTuple {n : Nat} {F : Fin n → Type} (iz : ∀ i, F i → Bool)
    (t : HTup n F) : Bool :=
  (List.finRange n).all fun i => iz i (nthRef t i)

/-- C7: the generated `zero()` places each element type's zero at its
position, and `is_zero` holds exactly when every position independently
reports zero. -/
theorem zero_spec {n : Nat} {F : Fin n → Type} (z : ∀ i, F i)
    (iz : ∀ i, F i → Bool) (t : HTup n F) :
    (∀ i, zeroTuple z i = z i)
    ∧ (isZeroTuple iz t = true ↔ ∀ i, iz i (t i) = true) := by
  refine ⟨fun i => rfl, ?_⟩
  rw [isZeroTuple]
  simp [List.all_eq_true, nthRef]

/-- `CopyableTuple::first` (tuple.rs lines 35-39):
`match *self { (ref t, _) => copy *t }`. -/
def first {α β : Type} (p : α × β) : α :=
  match p with
  | (t, _) => t

/-- `CopyableTuple::second` (tuple.rs lines 43-47):
`match *self { (_, ref u) => copy *u }`. -/
def second {α β : Type} (p : α × β) : β :=
  match p with
  | (_, u) => u

/-- `CopyableTuple::swap` (tuple.rs lines 51-55):
`match copy *self { (t, u) => (u, t) }`. -/
def swap {α β : Type} (p : α × β) : β × α :=
  match p with
  | (t, u) => (u, t)

/-- C10: `swap` exchanges the two elements of a pair, is an involution, and
the first element after a swap is the second element before it. -/
theorem swap_spec {α β : Type} (t : α) (u : β) (p : α × β) :
    swap (t, u) = (u, t)
    ∧ swap (swap p) = p
    ∧ first (swap p) = second p := by
  obtain ⟨x, y⟩ := p
  exact ⟨rfl, rfl, rfl⟩

end Tuple

namespace Intrinsics

/-- The host's native byte order, the compile-time `#[cfg(target_endian)]`
selector of intrinsics.rs lines 421-433. -/
inductive Endianness : Type
  | little : Endianness
  | big : Endianness

/-- Modelled from the spec: the `bswap16` compiler intrinsic (declared only,
intrinsics.rs line 416) is the 16-bit byte swap, exchanging the two bytes of
a 16-bit value (represented as a `Nat` below `2^16`). -/
def bswap16 (x : Nat) : Nat :=
  (x % 2 ^ 8) * 2 ^ 8 + (x / 2 ^ 8) % 2 ^ 8

/-- Modelled from the spec: the `bswap32` compiler intrinsic (declared only,
intrinsics.rs line 417) is the 32-bit byte swap, reversing the four bytes of
a 32-bit value. -/
def bswap32 (x : Nat) : Nat :=
  (x % 2 ^ 8) * 2 ^ 24 + ((x / 2 ^ 8) % 2 ^ 8) * 2 ^ 16
    + ((x / 2 ^ 16) % 2 ^ 8) * 2 ^ 8 + (x / 2 ^ 24) % 2 ^ 8

/-- Modelled from the spec: the `bswap64` compiler intrinsic (declared only,
intrinsics.rs line 418) is the 64-bit byte swap, reversing the eight bytes
of a 64-bit value. -/
def bswap64 (x : Nat) : Nat :=
  (x % 2 ^ 8) * 2 ^ 56 + ((x / 2 ^ 8) % 2 ^ 8) * 2 ^ 48
    + ((x / 2 ^ 16) % 2 ^ 8) * 2 ^ 40 + ((x / 2 ^ 24) % 2 ^ 8) * 2 ^ 32
    + ((x / 2 ^ 32) % 2 ^ 8) * 2 ^ 24 + ((x / 2 ^ 40) % 2 ^ 8) * 2 ^ 16
    + ((x / 2 ^ 48) % 2 ^ 8) * 2 ^ 8 + (x / 2 ^ 56) % 2 ^ 8

/-- `to_le16` (intrinsics.rs lines 421-422): the identity on a little-endian
host, `bswap16` on a big-endian host, selected by the host byte order. -/
def to_le16 : Endianness → Nat → Nat
  | Endianness.little, x => x
  | Endianness.big, x => bswap16 x

/-- `to_le32` (intrinsics.rs lines 423-424). -/
def to_le32 : Endianness → Nat → Nat
  | Endianness.little, x => x
  | Endianness.big, x => bswap32 x

/-- `to_le64` (intrinsics.rs lines 425-426). -/
def to_le64 : Endianness → Nat → Nat
  | Endianness.little, x => x
  | Endianness.big, x => bswap64 x

/-- `to_be16` (intrinsics.rs lines 428-429): `bswap16` on a little-endian
host, the identity on a big-endian host. -/
def to_be16 : Endianness → Nat → Nat
  | Endianness.little, x => bswap16 x
  | Endianness.big, x => x

/-- `to_be32` (intrinsics.rs lines 430-431). -/
def to_be32 : Endianness → Nat → Nat
  | Endianness.little, x => bswap32 x
  | Endianness.big, x => x

/-- `to_be64` (intrinsics.rs lines 432-433). -/
def to_be64 : Endianness → Nat → Nat
  | Endianness.little, x => bswap64 x
  | Endianness.big, x => x

/-- C8: for each width in {16, 32, 64}, to-little-endian is the identity on
a little-endian host and the byte swap on a big-endian host, and
to-big-endian is the byte swap on a little-endian host and the identity on a
big-endian host; the selection depends only on the host byte order. -/
theorem endian_spec (x : Nat) :
    to_le16 Endianness.little x = x
    ∧ to_le16 Endianness.big x = bswap16 x
    ∧ to_le32 Endianness.little x = x
    ∧ to_le32 Endianness.big x = bswap32 x
    ∧ to_le64 Endianness.little x = x
    ∧ to_le64 Endianness.big x = bswap64 x
    ∧ to_be16 Endianness.little x = bswap16 x
    ∧ to_be16 Endianness.big x = x
    ∧ to_be32 Endianness.little x = bswap32 x
    ∧ to_be32 Endianness.big x = x
    ∧ to_be64 Endianness.little x = bswap64 x
    ∧ to_be64 Endianness.big x = x :=
  ⟨rfl, rfl, rfl, rfl, rfl, rfl, rfl, rfl, rfl, rfl, rfl, rfl⟩

end Intrinsics

namespace Visitor

/-- One field of a record type: its name, mutability tag, and an identifier
standing for the field's type-descriptor pointer (`*TyDesc`). -/
structure RecField : Type where
  name : String
  mtbl : Nat
  inner : Nat

/-- The record-shape callbacks a `TyVisitor` receives (intrinsics.rs lines
105-110), recorded as trace events with the arguments they were passed. -/
inductive VEvent : Type
  | enterRec (nFields sz align : Nat) : VEvent
  | recField (i : Nat) (name : String) (mtbl : Nat) (inner : Nat) : VEvent
  | leaveRec (nFields sz align : Nat) : VEvent
deriving DecidableEq

/-- The record-shape portion of a `TyVisitor` (intrinsics.rs lines 105-110):
`visit_enter_rec`, `visit_rec_field` and `visit_leave_rec`, each returning
the continue-traversal flag. -/
structure RecVisitor : Type where
  enterRec : Nat → Nat → Nat → Bool
  recField : Nat → String → Nat → Nat → Bool
  leaveRec : Nat → Nat → Nat → Bool

/-- Modelled from the spec: the field loop of the `visit_tydesc` dispatcher
(declared only, intrinsics.rs line 316) visits the record's fields in
declaration order with consecutive indices from `i`, stopping immediately
when a callback returns false.  Returns the continue flag and the sequence
of callbacks issued. -/
def visitRecFields (v : RecVisitor) : List RecField → Nat → Bool × List VEvent
  | [], _ => (true, [])
  | f :: rest, i =>
    if v.recField i f.name f.mtbl f.inner then
      let r := visitRecFields v rest (i + 1)
      (r.1, VEvent.recField i f.name f.mtbl f.inner :: r.2)
    else
      (false, [VEvent.recField i f.name f.mtbl f.inner])

/-- Modelled from the spec: the `visit_tydesc` dispatcher (declared only,
intrinsics.rs line 316) traverses a record with fields `fields`, size `sz`
and alignment `align` by issuing `enter_rec`, the per-field callbacks with
indices from 0 in declaration order, and `leave_rec`, halting as soon as any
callback returns false. -/
def visitRec (v : RecVisitor) (sz align : Nat) (fields : List RecField) :
    Bool × List VEvent :=
  if v.enterRec fields.length sz align then
    let r := visitRecFields v fields 0
    if r.1 then
      (v.leaveRec fields.length sz align,
        VEvent.enterRec fields.length sz align ::
          (r.2 ++ [VEvent.leaveRec fields.length sz align]))
    else
      (false, VEvent.enterRec fields.length sz align :: r.2)
  else
    (false, [VEvent.enterRec fields.length sz align])

/-- When every per-field callback returns true, the field loop continues and
issues one callback per field, in declaration order, with consecutive
indices starting at `i`. -/
theorem visitRecFields_all_true (v : RecVisitor)
    (hf : ∀ i name mtbl inner, v.recField i name mtbl inner = true) :
    ∀ (fields : List RecField) (i : Nat),
      visitRecFields v fields i =
        (true, List.zipWith
          (fun d f => VEvent.recField (i + d) f.name f.mtbl f.inner)
          (List.range fields.length) fields) := by
  intro fields
  induction fields with
  | nil => intro i; rfl
  | cons f rest ih =>
    intro i
    simp only [visitRecFields, hf, if_true]
    rw [ih (i + 1)]
    have harith :
        (fun d (x : RecField) =>
            VEvent.recField (i + 1 + d) x.name x.mtbl x.inner)
          = fun d x => VEvent.recField (i + (d + 1)) x.name x.mtbl x.inner := by
      funext d x
      have h3 : i + 1 + d = i + (d + 1) := by omega
      rw [h3]
    simp only [List.length_cons, List.range_succ_eq_map,
      List.zipWith_cons_cons, List.zipWith_map_left, harith, Nat.add_zero]

/-- C9: when every visitor callback returns true, traversing a record with k
fields issues exactly one `enter_rec(k, size, align)`, then exactly k
`rec_field` calls carrying indices 0 through k-1 in field declaration order,
then exactly one `leave_rec(k, size, align)`, in that order with nothing
else interleaved. -/
theorem visit_rec_spec (v : RecVisitor) (sz align : Nat)
    (fields : List RecField)
    (he : ∀ n s a, v.enterRec n s a = true)
    (hf : ∀ i name mtbl inner, v.recField i name mtbl inner = true)
    (hl : ∀ n s a, v.leaveRec n s a = true) :
    visitRec v sz align fields =
      (true, VEvent.enterRec fields.length sz align ::
        (List.zipWith (fun i f => VEvent.recField i f.name f.mtbl f.inner)
          (List.range fields.length) fields
          ++ [VEvent.leaveRec fields.length sz align])) := by
  have hz :
      (fun d (x : RecField) =>
          VEvent.recField (0 + d) x.name x.mtbl x.inner)
        = fun i x => VEvent.recField i x.name x.mtbl x.inner := by
    funext d x
    rw [Nat.zero_add]
  simp only [visitRec, he, if_true, visitRecFields_all_true v hf fields 0,
    hz, hl]

/-- A visitor whose every callback returns true. -/
def allTrue : RecVisitor where
  enterRec := fun _ _ _ => true
  recField := fun _ _ _ _ => true
  leaveRec := fun _ _ _ => true

/-- The three fields of the record `{x: i32, y: f64, z: bool}` from the
spec's concrete scenario, with distinct type-descriptor identifiers. -/
def exFields : List RecField :=
  [⟨"x", 0, 10⟩, ⟨"y", 0, 11⟩, ⟨"z", 0, 12⟩]

/-- Closed instance of `visit_rec_spec` on the 3-field record scenario. -/
theorem visit_rec_spec_witness :
    visitRec allTrue 16 8 exFields =
      (true, VEvent.enterRec exFields.length 16 8 ::
        (List.zipWith (fun i f => VEvent.recField i f.name f.mtbl f.inner)
          (List.range exFields.length) exFields
          ++ [VEvent.leaveRec exFields.length 16 8])) :=
  visit_rec_spec allTrue 16 8 exFields (fun _ _ _ => rfl)
    (fun _ _ _ _ => rfl) (fun _ _ _ => rfl)

end Visitor
